import Mathlib

/-
Verification of the context-management core of an editor-integrated Ollama
client (autoload/ollama_complete.py).  Python strings are embedded as
`List Char`; Python dicts as association lists; the module's global mutable
state as an explicit `ModState` record threaded through the operations.
File-system effects (the persisted JSON context file) are embedded as an
explicit `DiskState`; clock reads (`time.strftime`) and the success of disk
writes are passed in as parameters.
-/

/-- Whitespace set stripped by Python's `str.strip()` / matched by `\s`
(ASCII part; the Unicode-only extras are irrelevant to the properties here). -/
def isPySpace (c : Char) : Bool :=
  c == ' ' || c == '\t' || c == '\n' || c == '\r' || c == '\x0b' || c == '\x0c'

/-- Remove trailing characters satisfying `isPySpace` (Python `str.rstrip()`). -/
def rstrip : List Char → List Char
  | [] => []
  | c :: rest =>
    match rstrip rest with
    | [] => if isPySpace c then [] else [c]
    | r :: rs => c :: r :: rs

/-- Python `str.strip()`: drop leading and trailing whitespace. -/
def pyStrip (s : List Char) : List Char :=
  rstrip (s.dropWhile isPySpace)

/-- `hasSub pat s` is true iff `pat` occurs as a contiguous substring of `s`
(Python's `pat in s`). -/
def hasSub (pat : List Char) : List Char → Bool
  | [] => pat.isEmpty
  | c :: rest => pat.isPrefixOf (c :: rest) || hasSub pat rest

/-- Fuelled worker for `removeOcc`; the fuel only serves structural
recursion and is irrelevant as soon as it bounds the list length
(`removeOccF_irrel`). -/
def removeOccF (p0 : Char) (ps : List Char) : Nat → List Char → List Char
  | _, [] => []
  | 0, s => s
  | fuel + 1, c :: rest =>
    if (p0 :: ps).isPrefixOf (c :: rest) then
      removeOccF p0 ps fuel (rest.drop ps.length)
    else
      c :: removeOccF p0 ps fuel rest

/-- One left-to-right pass removing every non-overlapping occurrence of the
pattern `p0 :: ps`, continuing after each removed occurrence — the semantics
of Python's `s.replace(pat, "")` for a non-empty `pat`. -/
def removeOcc (p0 : Char) (ps : List Char) (s : List Char) : List Char :=
  removeOccF p0 ps s.length s

/-- Python `s.replace(pat, "")` (identity when `pat` is empty never occurs in
this code base; kept total). -/
def removeAll (pat : List Char) (s : List Char) : List Char :=
  match pat with
  | [] => s
  | p :: ps => removeOcc p ps s

/-- Control token `<｜fim▁begin｜>`. -/
def fimBegin : List Char := "<｜fim▁begin｜>".toList
/-- Control token `<｜fim▁hole｜>`. -/
def fimHole : List Char := "<｜fim▁hole｜>".toList
/-- Control token `<｜fim▁end｜>`. -/
def fimEnd : List Char := "<｜fim▁end｜>".toList
/-- Control token `<|endoftext|>`. -/
def endOfText : List Char := "<|endoftext|>".toList
/-- Fence marker ``` (three backticks). -/
def fenceTok : List Char := "```".toList
/-- Opening fence with language tag, ```python. -/
def fencePython : List Char := "```python".toList

/-- Leading-junk class of `re.sub(r'^["\x27,`\s]+', '', s)`: double quote,
single quote, comma, backtick, whitespace. -/
def isLeadJunk (c : Char) : Bool :=
  c == '"' || c == '\'' || c == ',' || c == '`' || isPySpace c

/-- `clean_completion(completion, current_line_before_cursor)` from
autoload/ollama_complete.py, step for step: remove the four control tokens,
remove "```python" then "```", strip, drop a duplicated current-line prefix,
trim the leading junk class, truncate at the first newline, final strip. -/
def clean_completion (completion : List Char) (current_line_before_cursor : List Char) :
    List Char :=
  let c1 := removeAll fimBegin completion
  let c2 := removeAll fimHole c1
  let c3 := removeAll fimEnd c2
  let c4 := removeAll endOfText c3
  let c5 := removeAll fencePython c4
  let c6 := removeAll fenceTok c5
  let c7 := pyStrip c6
  let cur := pyStrip current_line_before_cursor
  let c8 := if !cur.isEmpty && cur.isPrefixOf c7 then pyStrip (c7.drop cur.length) else c7
  let c9 := c8.dropWhile isLeadJunk
  let c10 := c9.takeWhile (fun c => c != '\n')
  pyStrip c10

/-- The value of `completion` in `clean_completion` after the four token
removals and the two fence removals (end of source line 178, before the
strip): the last replacement performed is `replace("```", "")`. -/
def cleanFences (completion : List Char) : List Char :=
  removeAll fenceTok (removeAll fencePython (removeAll endOfText
    (removeAll fimEnd (removeAll fimHole (removeAll fimBegin completion)))))

/-- The value of `completion` in `clean_completion` after additionally
stripping and removing a duplicated current-line prefix (end of source
line 181). -/
def cleanDedup (completion current_line_before_cursor : List Char) : List Char :=
  let c7 := pyStrip (cleanFences completion)
  let cur := pyStrip current_line_before_cursor
  if !cur.isEmpty && cur.isPrefixOf c7 then pyStrip (c7.drop cur.length) else c7

/-- `"python"` as a character list (the optional language tag of a fence). -/
def pyWord : List Char := "python".toList

/-- Attempt of the fence-opening part of both extraction regexes at one start
position: literal ```` ``` ````, then the optional (greedy, but disjoint from
the newline that must follow) tag `python`, then a literal newline.  Returns
the remainder after the newline. -/
def openAt (s : List Char) : Option (List Char) :=
  if fenceTok.isPrefixOf s then
    let r := s.drop 3
    let r2 := if pyWord.isPrefixOf r then r.drop 6 else r
    match r2 with
    | c :: rest => if c = '\n' then some rest else none
    | [] => none
  else none

/-- Lazy capture of `(.*?)` up to the next ``` occurrence: the prefix of `s`
before the first position where ``` starts, or `none` when ``` never occurs. -/
def splitFence : List Char → Option (List Char)
  | [] => none
  | c :: rest =>
    if fenceTok.isPrefixOf (c :: rest) then some []
    else (splitFence rest).map (fun l => c :: l)

/-- Leftmost match of `re.search(r"```(?:python)?\n(.*?)```", content, re.DOTALL)`:
the capture group of the first start position where a complete fenced block
matches. -/
def searchFull : List Char → Option (List Char)
  | [] => none
  | c :: rest =>
    match openAt (c :: rest) with
    | some r =>
      match splitFence r with
      | some cap => some cap
      | none => searchFull rest
    | none => searchFull rest

/-- Leftmost match of `re.search(r"```(?:python)?\n(.*)", content, re.DOTALL)`:
everything after the first opening fence marker (greedy capture to the end). -/
def searchOpen : List Char → Option (List Char)
  | [] => none
  | c :: rest =>
    match openAt (c :: rest) with
    | some r => some r
    | none => searchOpen rest

/-- `_extract_code(content)` from autoload/ollama_complete.py: first a fenced
block with both markers, else everything after a lone opening marker, else the
whole content; always stripped. -/
def extract_code (content : List Char) : List Char :=
  match searchFull content with
  | some cap => pyStrip cap
  | none =>
    match searchOpen content with
    | some r => pyStrip r
    | none => pyStrip content

/-- Python `s.split("\n")`: the list of physical lines (an empty string yields
one empty line; a trailing newline yields a final empty line). -/
def splitNl : List Char → List (List Char)
  | [] => [[]]
  | c :: rest =>
    if c = '\n' then [] :: splitNl rest
    else
      match splitNl rest with
      | [] => [[c]]
      | l :: ls => (c :: l) :: ls

/-- The "code-like" punctuation probed by `_clean_code_lines`. -/
def codeChars : List Char := ['=', '(', ')', '.', '[', ']', ':', '#']

/-- Does the stripped line end with `"..."`, `"?"` or `"!"`? -/
def endsProse (s : List Char) : Bool :=
  ("...".toList).isSuffixOf s || (['?']).isSuffixOf s || (['!']).isSuffixOf s

/-- First character is an uppercase letter (`s[0].isupper()`; ASCII range,
which is what every comparison in the source exercises). -/
def headIsUpper (s : List Char) : Bool :=
  match s with
  | [] => false
  | c :: _ => c.isUpper

/-- Per-line keep/drop decision of the loop body of `_clean_code_lines` for a
stripped, non-blank line `s`: drop fences, imports, `read_csv` lines, and
prose (uppercase start without code punctuation, or trailing `...`/`?`/`!`)
unless the line is a `#` comment. -/
def keep_line (s : List Char) : Bool :=
  if fenceTok.isPrefixOf s then false
  else if ("import ".toList).isPrefixOf s || ("from ".toList).isPrefixOf s then false
  else if hasSub ("read_csv".toList) s then false
  else
    let has_code := s.any (fun c => codeChars.contains c)
    let is_comment := (['#']).isPrefixOf s
    let is_prose := (headIsUpper s && !has_code) || endsProse s
    !(is_prose && !is_comment)

/-- The first loop of `_clean_code_lines`: blank lines become `""`, kept lines
stay verbatim, the rest disappear. -/
def clean_pass : List (List Char) → List (List Char)
  | [] => []
  | line :: rest =>
    let s := pyStrip line
    if s.isEmpty then [] :: clean_pass rest
    else if keep_line s then line :: clean_pass rest
    else clean_pass rest

/-- `existing = set(l.strip() for l in all_lines if l.strip())`: the stripped
non-blank lines of the target document (kept as a list; only membership is
ever used). -/
def existing_of (allLines : List (List Char)) : List (List Char) :=
  (allLines.map pyStrip).filter (fun l => !l.isEmpty)

/-- `_clean_code_lines(generated, all_lines)` from autoload/ollama_complete.py:
the per-line pass followed by the duplicate filter against the document. -/
def clean_code_lines (generated : List Char) (allLines : List (List Char)) :
    List (List Char) :=
  (clean_pass (splitNl generated)).filter
    (fun l => !(existing_of allLines).contains (pyStrip l))

/-- One-line decision function equivalent to the whole of `_clean_code_lines`
on a single physical line (used to state where blank lines end up). -/
def clean_step (existing : List (List Char)) (line : List Char) :
    Option (List Char) :=
  let s := pyStrip line
  if s.isEmpty then if existing.contains [] then none else some []
  else if keep_line s then if existing.contains s then none else some line
  else none

/-- One conversation message, `{"role": ..., "content": ...}`. -/
structure Turn where
  role : String
  content : String
deriving DecidableEq

/-- `MAX_TURNS = 10`: keep the last N user/assistant pairs. -/
def MAX_TURNS : Nat := 10

/-- `add_turn(role, content)` from autoload/ollama_complete.py acting on the
explicit `_turn_history` list: unconditional append, then `del history[0]`
when the length exceeds `MAX_TURNS * 2`. -/
def add_turn (history : List Turn) (t : Turn) : List Turn :=
  let h2 := history ++ [t]
  if MAX_TURNS * 2 < h2.length then h2.drop 1 else h2

/-- `get_history_messages(system_prompt)`: a system message followed by
`_turn_history[-(MAX_TURNS * 2):]`, the last `2*MAX_TURNS` turns in order. -/
def get_history_messages (system_prompt : String) (history : List Turn) : List Turn :=
  { role := "system", content := system_prompt } ::
    history.drop (history.length - MAX_TURNS * 2)

/-- The last `n` entries of a list (all of it when it is shorter). -/
def lastN (n : Nat) (l : List Turn) : List Turn :=
  l.drop (l.length - n)

/-- Python dict assignment `m[k] = v` on an association list: overwrite in
place when the key exists, else append at the end. -/
def dictSet {β : Type} (m : List (String × β)) (k : String) (v : β) :
    List (String × β) :=
  if m.any (fun p => p.1 == k) then
    m.map (fun p => if p.1 == k then (k, v) else p)
  else m ++ [(k, v)]

/-- A persisted snippet entry `{"code": ..., "timestamp": ...}`. -/
structure SnippetEntry where
  code : String
  timestamp : String
deriving DecidableEq

/-- A persisted file-summary entry `{"summary": ..., "timestamp": ...}`. -/
structure SummaryEntry where
  summary : String
  timestamp : String
deriving DecidableEq

/-- The persisted context document.  Each top-level key may be absent (the
code reaches them only through `.setdefault` / `.get(key, {})`), hence the
`Option`; `none` models a document without that key. -/
structure Doc where
  snippets : Option (List (String × SnippetEntry))
  file_summaries : Option (List (String × SummaryEntry))
deriving DecidableEq

/-- The document `{"snippets": {}, "file_summaries": {}}`. -/
def emptyDoc : Doc := { snippets := some [], file_summaries := some [] }

/-- State of the backing file `CONTEXT_FILE`: missing, present but failing to
read (I/O error inside `open`/`read`), present but failing to parse as JSON,
or present and parsing to the document `d`. -/
inductive DiskState where
  | absent : DiskState
  | unreadable : DiskState
  | corrupt : DiskState
  | good : Doc → DiskState
deriving DecidableEq

/-- `_load_context()` from autoload/ollama_complete.py: if the file exists,
try to read and parse it, returning the parsed document; on any exception
(`unreadable`, `corrupt`) fall through; a missing file skips the read.  All
failure paths return `{"snippets": {}, "file_summaries": {}}`; the function
is total — no error propagates. -/
def load_context : DiskState → Doc
  | .good d => d
  | .absent => emptyDoc
  | .unreadable => emptyDoc
  | .corrupt => emptyDoc

/-- `_save_context(ctx)`: serialize the whole document over the backing file;
an I/O failure (`write_ok = false`) is swallowed and leaves the file as it
was. -/
def save_context (write_ok : Bool) (ctx : Doc) (disk : DiskState) : DiskState :=
  if write_ok then .good ctx else disk

/-- The module's process-wide mutable state: `_turn_history`,
`_snippet_cache`, `_disk_context`, and the backing file. -/
structure ModState where
  turn_history : List Turn
  snippet_cache : List (String × String)
  disk_context : Doc
  disk : DiskState
deriving DecidableEq

/-- `cache_snippet(comment, code)`: write the memory tier, write
`{"code", "timestamp"}` into `_disk_context.setdefault("snippets", {})`, then
flush the whole document.  `ts` is the `time.strftime(...)` reading and
`write_ok` the fate of the disk write. -/
def cache_snippet (comment code ts : String) (write_ok : Bool) (st : ModState) :
    ModState :=
  let mem := dictSet st.snippet_cache comment code
  let snips := dictSet (st.disk_context.snippets.getD []) comment
    { code := code, timestamp := ts }
  let ctx : Doc := { st.disk_context with snippets := some snips }
  { st with
    snippet_cache := mem
    disk_context := ctx
    disk := save_context write_ok ctx st.disk }

/-- `get_cached_snippet(comment)`: the memory tier first, then the `"code"`
field of the persisted entry, else `None`. -/
def get_cached_snippet (st : ModState) (comment : String) : Option String :=
  match st.snippet_cache.lookup comment with
  | some code => some code
  | none =>
    match (st.disk_context.snippets.getD []).lookup comment with
    | some entry => some entry.code
    | none => none

/-- `store_file_summary(filepath, summary)`: write
`{"summary", "timestamp"}` into `_disk_context.setdefault("file_summaries", {})`
and flush the whole document. -/
def store_file_summary (filepath summary ts : String) (write_ok : Bool)
    (st : ModState) : ModState :=
  let sums := dictSet (st.disk_context.file_summaries.getD []) filepath
    { summary := summary, timestamp := ts }
  let ctx : Doc := { st.disk_context with file_summaries := some sums }
  { st with
    disk_context := ctx
    disk := save_context write_ok ctx st.disk }

/-- The 25 turns of the C8 scenario: roles alternate user/assistant, contents
are pairwise distinct. -/
def turns25 : List Turn :=
  (List.range 25).map fun i =>
    { role := if i % 2 == 0 then "user" else "assistant"
      content := "m" ++ toString i }

/-- 21 distinct user turns, a concrete input used to witness the C2 bound. -/
def ts21 : List Turn :=
  (List.range 21).map fun i => { role := "user", content := "w" ++ toString i }

/-- Two backticks, the tail of the fence marker. -/
def tick2 : List Char := ['`', '`']

/-- Length of the leading run of backticks. -/
def leadTicks (s : List Char) : Nat :=
  (s.takeWhile (fun c => c == '`')).length

theorem isPrefixOf_extend {pat t v : List Char} (h : pat.isPrefixOf t = true) :
    pat.isPrefixOf (t ++ v) = true := by
  induction pat generalizing t with
  | nil => simp [List.isPrefixOf]
  | cons a as ih =>
    cases t with
    | nil => simp [List.isPrefixOf] at h
    | cons b bs =>
      simp only [List.isPrefixOf, Bool.and_eq_true] at h ⊢
      exact ⟨h.1, ih h.2⟩

theorem hasSub_append_left {pat t : List Char} (u : List Char)
    (h : hasSub pat t = true) : hasSub pat (u ++ t) = true := by
  induction u with
  | nil => simpa using h
  | cons c cs ih =>
    simp only [List.cons_append, hasSub, Bool.or_eq_true]
    exact Or.inr ih

theorem hasSub_append_right {pat t : List Char} (v : List Char)
    (h : hasSub pat t = true) : hasSub pat (t ++ v) = true := by
  induction t with
  | nil =>
    simp only [hasSub, List.isEmpty_iff] at h
    subst h
    cases v with
    | nil => simp [hasSub]
    | cons c cs => simp [hasSub, List.isPrefixOf]
  | cons c cs ih =>
    simp only [hasSub, Bool.or_eq_true] at h
    simp only [List.cons_append, hasSub, Bool.or_eq_true]
    rcases h with h | h
    · exact Or.inl (by simpa using isPrefixOf_extend (v := v) h)
    · exact Or.inr (ih h)

theorem hasSub_of_middle {pat u t v : List Char} (h : hasSub pat t = true) :
    hasSub pat (u ++ t ++ v) = true := by
  rw [List.append_assoc]
  exact hasSub_append_left u (hasSub_append_right v h)

theorem rstrip_prefix_ex (s : List Char) : ∃ t, rstrip s ++ t = s := by
  induction s with
  | nil => exact ⟨[], rfl⟩
  | cons c rest ih =>
    obtain ⟨t, ht⟩ := ih
    cases hr : rstrip rest with
    | nil =>
      by_cases hc : isPySpace c
      · exact ⟨c :: rest, by simp [rstrip, hr, hc]⟩
      · refine ⟨rest, ?_⟩
        simp [rstrip, hr, hc]
    | cons r rs =>
      refine ⟨t, ?_⟩
      rw [hr] at ht
      simp only [rstrip, hr, List.cons_append, ht]

theorem dropWhile_suffix_ex (p : Char → Bool) (s : List Char) :
    ∃ u, u ++ s.dropWhile p = s :=
  ⟨s.takeWhile p, List.takeWhile_append_dropWhile p s⟩

theorem takeWhile_prefix_ex (p : Char → Bool) (s : List Char) :
    ∃ v, s.takeWhile p ++ v = s :=
  ⟨s.dropWhile p, List.takeWhile_append_dropWhile p s⟩

theorem hasSub_rstrip {pat s : List Char} (h : hasSub pat (rstrip s) = true) :
    hasSub pat s = true := by
  obtain ⟨t, ht⟩ := rstrip_prefix_ex s
  rw [← ht]
  exact hasSub_append_right t h

theorem hasSub_dropWhile {pat : List Char} {p : Char → Bool} {s : List Char}
    (h : hasSub pat (s.dropWhile p) = true) : hasSub pat s = true := by
  obtain ⟨u, hu⟩ := dropWhile_suffix_ex p s
  rw [← hu]
  exact hasSub_append_left u h

theorem hasSub_takeWhile {pat : List Char} {p : Char → Bool} {s : List Char}
    (h : hasSub pat (s.takeWhile p) = true) : hasSub pat s = true := by
  obtain ⟨v, hv⟩ := takeWhile_prefix_ex p s
  rw [← hv]
  exact hasSub_append_right v h

theorem hasSub_drop {pat : List Char} {n : Nat} {s : List Char}
    (h : hasSub pat (s.drop n) = true) : hasSub pat s = true := by
  rw [← List.take_append_drop n s]
  exact hasSub_append_left _ h

theorem hasSub_pyStrip {pat s : List Char} (h : hasSub pat (pyStrip s) = true) :
    hasSub pat s = true :=
  hasSub_dropWhile (hasSub_rstrip h)

theorem mem_rstrip {c : Char} {s : List Char} (h : c ∈ rstrip s) : c ∈ s := by
  obtain ⟨t, ht⟩ := rstrip_prefix_ex s
  rw [← ht]
  exact List.mem_append_left t h

theorem mem_pyStrip {c : Char} {s : List Char} (h : c ∈ pyStrip s) : c ∈ s := by
  obtain ⟨u, hu⟩ := dropWhile_suffix_ex isPySpace s
  rw [← hu]
  exact List.mem_append_right u (mem_rstrip h)

theorem leadTicks_nil : leadTicks [] = 0 := rfl

theorem leadTicks_cons_tick (s : List Char) :
    leadTicks ('`' :: s) = leadTicks s + 1 := by
  simp [leadTicks, List.takeWhile_cons]

theorem leadTicks_cons_ne {c : Char} (s : List Char) (h : ¬ c = '`') :
    leadTicks (c :: s) = 0 := by
  have hb : (c == '`') = false := by
    simpa using fun he => h he
  simp [leadTicks, List.takeWhile_cons, hb]

theorem oneTick_not_pre {l : List Char} (h : leadTicks l = 0) :
    (['`'].isPrefixOf l) = false := by
  cases l with
  | nil => rfl
  | cons e w =>
    by_cases he : e = '`'
    · subst he
      rw [leadTicks_cons_tick] at h
      omega
    · have hb : ('`' == e) = false := by
        simpa using fun hx => he hx.symm
      simp [List.isPrefixOf, hb]

theorem twoTicks_not_pre {l : List Char} (h : leadTicks l = 0) :
    (tick2.isPrefixOf l) = false := by
  cases l with
  | nil => rfl
  | cons e w =>
    by_cases he : e = '`'
    · subst he
      rw [leadTicks_cons_tick] at h
      omega
    · have hb : ('`' == e) = false := by
        simpa using fun hx => he hx.symm
      simp [tick2, List.isPrefixOf, hb]

theorem leadTicks_zero_of_not_pre {l : List Char} (h : (['`'].isPrefixOf l) = false) :
    leadTicks l = 0 := by
  cases l with
  | nil => rfl
  | cons e w =>
    by_cases he : e = '`'
    · subst he
      simp [List.isPrefixOf] at h
    · exact leadTicks_cons_ne w he

theorem removeOccF_irrel (p0 : Char) (ps : List Char) :
    ∀ n m s, s.length ≤ n → s.length ≤ m →
      removeOccF p0 ps n s = removeOccF p0 ps m s := by
  intro n
  induction n with
  | zero =>
    intro m s hn _
    have : s = [] := List.length_eq_zero.mp (Nat.le_zero.mp hn)
    subst this
    cases m <;> rfl
  | succ n ih =>
    intro m s hn hm
    cases s with
    | nil => cases m <;> rfl
    | cons c rest =>
      cases m with
      | zero => simp at hm
      | succ m =>
        show (if (p0 :: ps).isPrefixOf (c :: rest) then
                removeOccF p0 ps n (rest.drop ps.length)
              else c :: removeOccF p0 ps n rest) =
             (if (p0 :: ps).isPrefixOf (c :: rest) then
                removeOccF p0 ps m (rest.drop ps.length)
              else c :: removeOccF p0 ps m rest)
        have hlen : rest.length ≤ n ∧ rest.length ≤ m := by
          simp only [List.length_cons] at hn hm
          omega
        have hdlen : (rest.drop ps.length).length ≤ n ∧
            (rest.drop ps.length).length ≤ m := by
          rw [List.length_drop]
          omega
        by_cases hp : ((p0 :: ps).isPrefixOf (c :: rest)) = true
        · rw [if_pos hp, if_pos hp, ih m _ hdlen.1 hdlen.2]
        · rw [if_neg hp, if_neg hp, ih m _ hlen.1 hlen.2]

theorem removeOcc_nil (p0 : Char) (ps : List Char) : removeOcc p0 ps [] = [] := rfl

theorem removeOcc_cons (p0 c : Char) (ps rest : List Char) :
    removeOcc p0 ps (c :: rest) =
      if (p0 :: ps).isPrefixOf (c :: rest) then
        removeOcc p0 ps (rest.drop ps.length)
      else
        c :: removeOcc p0 ps rest := by
  show (if (p0 :: ps).isPrefixOf (c :: rest) then
          removeOccF p0 ps rest.length (rest.drop ps.length)
        else c :: removeOccF p0 ps rest.length rest) = _
  by_cases hp : ((p0 :: ps).isPrefixOf (c :: rest)) = true
  · rw [if_pos hp, if_pos hp]
    exact removeOccF_irrel p0 ps rest.length _ _
      (by rw [List.length_drop]; omega) (Nat.le_refl _)
  · rw [if_neg hp, if_neg hp]
    rfl

theorem hasSub_fence_cons_ne {c : Char} {r : List Char} (hc : ¬ c = '`')
    (hr : hasSub fenceTok r = false) : hasSub fenceTok (c :: r) = false := by
  have hb : ('`' == c) = false := by
    simpa using fun hx => hc hx.symm
  have h1 : fenceTok.isPrefixOf (c :: r) = false := by
    have he : fenceTok = '`' :: tick2 := rfl
    rw [he]
    simp [List.isPrefixOf, hb]
  simp [hasSub, h1, hr]

theorem hasSub_fence_cons_tick {r : List Char} (h2 : tick2.isPrefixOf r = false)
    (hr : hasSub fenceTok r = false) : hasSub fenceTok ('`' :: r) = false := by
  have : fenceTok.isPrefixOf ('`' :: r) = false := by
    have he : fenceTok = '`' :: tick2 := rfl
    rw [he]
    simp [List.isPrefixOf, h2]
  simp [hasSub, this, hr]

theorem removeOcc_fence_aux (n : Nat) : ∀ s : List Char, s.length ≤ n →
    hasSub fenceTok (removeOcc '`' tick2 s) = false ∧
    leadTicks (removeOcc '`' tick2 s) = leadTicks s % 3 := by
  induction n with
  | zero =>
    intro s hs
    have : s = [] := List.length_eq_zero.mp (Nat.le_zero.mp hs)
    subst this
    rw [removeOcc_nil]
    exact ⟨rfl, rfl⟩
  | succ n ih =>
    intro s hs
    cases s with
    | nil =>
      rw [removeOcc_nil]
      exact ⟨rfl, rfl⟩
    | cons c rest =>
      by_cases hpre : (('`' :: tick2).isPrefixOf (c :: rest)) = true
      · -- a fence occurrence is removed: s = '`' :: '`' :: '`' :: u
        have hstep : removeOcc '`' tick2 (c :: rest) =
            removeOcc '`' tick2 (rest.drop tick2.length) := by
          rw [removeOcc_cons, if_pos hpre]
        simp only [List.isPrefixOf, Bool.and_eq_true, beq_iff_eq] at hpre
        obtain ⟨hc, hrest⟩ := hpre
        cases rest with
        | nil => simp [tick2, List.isPrefixOf] at hrest
        | cons d rest2 =>
          simp only [tick2, List.isPrefixOf, Bool.and_eq_true, beq_iff_eq] at hrest
          obtain ⟨hd, hrest2⟩ := hrest
          cases rest2 with
          | nil => simp [List.isPrefixOf] at hrest2
          | cons e u =>
            simp only [List.isPrefixOf, Bool.and_eq_true, beq_iff_eq] at hrest2
            have he : '`' = e := hrest2.1
            have hu : u.length ≤ n := by
              simp only [List.length_cons] at hs
              omega
            obtain ⟨ih1, ih2⟩ := ih u hu
            have hdrop : (d :: e :: u).drop tick2.length = u := by
              simp [tick2]
            rw [hstep, hdrop]
            refine ⟨ih1, ?_⟩
            rw [ih2, ← hc, ← hd, ← he]
            rw [leadTicks_cons_tick, leadTicks_cons_tick, leadTicks_cons_tick]
            omega
      · -- the head survives
        have hpre' : (('`' :: tick2).isPrefixOf (c :: rest)) = false :=
          Bool.not_eq_true _ ▸ (by simpa using hpre)
        have hstep : removeOcc '`' tick2 (c :: rest) =
            c :: removeOcc '`' tick2 rest := by
          rw [removeOcc_cons, if_neg hpre]
        have hrlen : rest.length ≤ n := by
          simp only [List.length_cons] at hs
          omega
        by_cases hc : c = '`'
        · subst hc
          have h2 : tick2.isPrefixOf rest = false := by
            by_contra hx
            have hx' : tick2.isPrefixOf rest = true := by
              simpa using hx
            rw [List.isPrefixOf] at hpre'
            simp [hx'] at hpre'
          cases rest with
          | nil =>
            rw [hstep, removeOcc_nil]
            exact ⟨by decide, by decide⟩
          | cons d u =>
            by_cases hd : d = '`'
            · subst hd
              -- s = '`' :: '`' :: u with u not starting in a tick
              have hu1 : (['`'].isPrefixOf u) = false := by
                by_contra hx
                have hx' : (['`'].isPrefixOf u) = true := by simpa using hx
                simp [tick2, List.isPrefixOf, hx'] at h2
              have hulead : leadTicks u = 0 := leadTicks_zero_of_not_pre hu1
              have hu : u.length ≤ n := by
                simp only [List.length_cons] at hs
                omega
              obtain ⟨ih1, ih2⟩ := ih u hu
              have hulead' : leadTicks (removeOcc '`' tick2 u) = 0 := by
                rw [ih2, hulead]
              have hstep2 : removeOcc '`' tick2 ('`' :: u) =
                  '`' :: removeOcc '`' tick2 u := by
                have hx : (('`' :: tick2).isPrefixOf ('`' :: u)) = false := by
                  simp [List.isPrefixOf, twoTicks_not_pre hulead]
                rw [removeOcc_cons, if_neg (by simp [hx])]
              rw [hstep, hstep2]
              have hff1 : hasSub fenceTok ('`' :: removeOcc '`' tick2 u) = false :=
                hasSub_fence_cons_tick (twoTicks_not_pre hulead') ih1
              have hpre1 : tick2.isPrefixOf ('`' :: removeOcc '`' tick2 u) = false := by
                simp only [tick2, List.isPrefixOf, beq_self_eq_true, Bool.true_and]
                exact oneTick_not_pre hulead'
              refine ⟨hasSub_fence_cons_tick hpre1 hff1, ?_⟩
              rw [leadTicks_cons_tick, leadTicks_cons_tick,
                leadTicks_cons_tick, leadTicks_cons_tick, hulead', hulead]
            · -- s = '`' :: d :: u with d not a tick
              obtain ⟨ih1, ih2⟩ := ih (d :: u) hrlen
              have hdlead : leadTicks (d :: u) = 0 := leadTicks_cons_ne u hd
              have hrlead' : leadTicks (removeOcc '`' tick2 (d :: u)) = 0 := by
                rw [ih2, hdlead]
              rw [hstep]
              refine ⟨hasSub_fence_cons_tick (twoTicks_not_pre hrlead') ih1, ?_⟩
              rw [leadTicks_cons_tick, leadTicks_cons_tick, hrlead', hdlead]
        · obtain ⟨ih1, ih2⟩ := ih rest hrlen
          rw [hstep]
          refine ⟨hasSub_fence_cons_ne hc ih1, ?_⟩
          rw [leadTicks_cons_ne _ hc, leadTicks_cons_ne _ hc]

theorem removeAll_fence_free (s : List Char) :
    hasSub fenceTok (removeAll fenceTok s) = false := by
  have he : removeAll fenceTok s = removeOcc '`' tick2 s := rfl
  rw [he]
  exact (removeOcc_fence_aux s.length s (Nat.le_refl _)).1

theorem hasSub_false_of {pat s t : List Char}
    (mono : hasSub pat t = true → hasSub pat s = true)
    (hs : hasSub pat s = false) : hasSub pat t = false := by
  cases ht : hasSub pat t with
  | false => rfl
  | true =>
    rw [mono ht] at hs
    exact absurd hs (by simp)

theorem clean_completion_eq (raw p : List Char) :
    clean_completion raw p =
      pyStrip (((cleanDedup raw p).dropWhile isLeadJunk).takeWhile
        (fun c => c != '\n')) := rfl

theorem cleanDedup_fence_free (raw p : List Char) :
    hasSub fenceTok (cleanDedup raw p) = false := by
  have h6 : hasSub fenceTok (cleanFences raw) = false := removeAll_fence_free _
  have h7 : hasSub fenceTok (pyStrip (cleanFences raw)) = false :=
    hasSub_false_of hasSub_pyStrip h6
  show hasSub fenceTok
      (if !(pyStrip p).isEmpty && (pyStrip p).isPrefixOf (pyStrip (cleanFences raw))
       then pyStrip ((pyStrip (cleanFences raw)).drop (pyStrip p).length)
       else pyStrip (cleanFences raw)) = false
  by_cases hb : (!(pyStrip p).isEmpty &&
      (pyStrip p).isPrefixOf (pyStrip (cleanFences raw))) = true
  · rw [if_pos hb]
    exact hasSub_false_of (fun h => hasSub_drop (hasSub_pyStrip h)) h7
  · rw [if_neg hb]
    exact h7

theorem lastN_of_le {n : Nat} {l : List Turn} (h : l.length ≤ n) : lastN n l = l := by
  unfold lastN
  have h0 : l.length - n = 0 := by omega
  rw [h0, List.drop_zero]

theorem add_turn_ite (h : List Turn) (t : Turn) :
    add_turn h t =
      if MAX_TURNS * 2 < (h ++ [t]).length then (h ++ [t]).drop 1 else h ++ [t] := rfl

theorem add_turn_length {h : List Turn} (t : Turn)
    (hh : h.length ≤ MAX_TURNS * 2) :
    (add_turn h t).length ≤ MAX_TURNS * 2 := by
  rw [add_turn_ite]
  by_cases hc : MAX_TURNS * 2 < (h ++ [t]).length
  · rw [if_pos hc, List.length_drop]
    simp only [List.length_append, List.length_singleton] at hc ⊢
    omega
  · rw [if_neg hc]
    omega

theorem add_turn_eq_lastN {h : List Turn} (t : Turn)
    (hh : h.length ≤ MAX_TURNS * 2) :
    add_turn h t = lastN (MAX_TURNS * 2) (h ++ [t]) := by
  rw [add_turn_ite]
  unfold lastN
  by_cases hc : MAX_TURNS * 2 < (h ++ [t]).length
  · rw [if_pos hc]
    have h1 : (h ++ [t]).length - MAX_TURNS * 2 = 1 := by
      simp only [List.length_append, List.length_singleton] at hc ⊢
      omega
    rw [h1]
  · rw [if_neg hc]
    have h1 : (h ++ [t]).length - MAX_TURNS * 2 = 0 := by omega
    rw [h1, List.drop_zero]

theorem lastN_append (a b : List Turn) (n : Nat) :
    lastN n (lastN n a ++ b) = lastN n (a ++ b) := by
  unfold lastN
  by_cases h : a.length ≤ n
  · have h0 : a.length - n = 0 := by omega
    rw [h0, List.drop_zero]
  · have hlt : n < a.length := by omega
    have h1 : (a.drop (a.length - n)).length = n := by
      rw [List.length_drop]
      omega
    rw [List.length_append, List.length_append, h1]
    have h2 : n + b.length - n = b.length := by omega
    rw [h2, List.drop_append_eq_append_drop, List.drop_append_eq_append_drop,
      List.drop_drop, h1]
    congr 1
    · congr 1
      omega
    · congr 1
      omega

theorem foldl_add_turn (ts : List Turn) : ∀ init : List Turn,
    init.length ≤ MAX_TURNS * 2 →
    List.foldl add_turn init ts = lastN (MAX_TURNS * 2) (init ++ ts) := by
  induction ts with
  | nil =>
    intro init h
    simp only [List.foldl_nil, List.append_nil]
    exact (lastN_of_le h).symm
  | cons t ts ih =>
    intro init h
    rw [List.foldl_cons, ih _ (add_turn_length t h), add_turn_eq_lastN t h,
      lastN_append, List.append_assoc, List.singleton_append]

theorem foldl_add_turn_length (ts init : List Turn)
    (h : init.length ≤ MAX_TURNS * 2) :
    (List.foldl add_turn init ts).length ≤ MAX_TURNS * 2 := by
  rw [foldl_add_turn ts init h]
  unfold lastN
  rw [List.length_drop]
  omega

theorem existing_of_no_empty (allLines : List (List Char)) :
    (existing_of allLines).contains [] = false := by
  cases hc : (existing_of allLines).contains [] with
  | false => rfl
  | true =>
    have hm : ([] : List Char) ∈ existing_of allLines := List.elem_iff.mp hc
    have h2 := (List.mem_filter.mp hm).2
    simp at h2

theorem clean_step_blank {ex : List (List Char)} (hex : ex.contains [] = false)
    {line : List Char} (hb : pyStrip line = []) : clean_step ex line = some [] := by
  unfold clean_step
  rw [hb]
  have h1 : (([] : List Char).isEmpty) = true := rfl
  rw [if_pos h1, if_neg (by rw [hex]; exact Bool.false_ne_true)]

theorem filter_clean_pass (ex : List (List Char)) (hex : ex.contains [] = false)
    (lines : List (List Char)) :
    (clean_pass lines).filter (fun l => !ex.contains (pyStrip l)) =
      lines.filterMap (clean_step ex) := by
  induction lines with
  | nil => rfl
  | cons line rest ih =>
    by_cases hb : (pyStrip line).isEmpty = true
    · have hb' : pyStrip line = [] := by simpa using hb
      have h1 : clean_pass (line :: rest) = [] :: clean_pass rest := by
        simp only [clean_pass, hb, if_true]
      rw [h1, List.filter_cons, List.filterMap_cons, clean_step_blank hex hb']
      have h2 : (!ex.contains (pyStrip ([] : List Char))) = true := by
        have hps : pyStrip ([] : List Char) = [] := rfl
        rw [hps, hex]
        rfl
      rw [if_pos h2, ih]
    · have hbf : (pyStrip line).isEmpty = false := by
        simpa using hb
      by_cases hk : keep_line (pyStrip line) = true
      · have h1 : clean_pass (line :: rest) = line :: clean_pass rest := by
          simp only [clean_pass, hbf, Bool.false_eq_true, if_false, hk, if_true]
        rw [h1, List.filter_cons, List.filterMap_cons]
        have h2 : clean_step ex line =
            if ex.contains (pyStrip line) then none else some line := by
          simp only [clean_step, hbf, Bool.false_eq_true, if_false, hk, if_true]
        by_cases hc : ex.contains (pyStrip line) = true
        · rw [h2, if_pos hc]
          have : (!ex.contains (pyStrip line)) = false := by
            rw [hc]
            rfl
          rw [this]
          simp only [Bool.false_eq_true, if_false]
          exact ih
        · have hcf : ex.contains (pyStrip line) = false := by simpa using hc
          rw [h2, if_neg hc]
          have : (!ex.contains (pyStrip line)) = true := by
            rw [hcf]
            rfl
          rw [if_pos this, ih]
      · have hkf : keep_line (pyStrip line) = false := by simpa using hk
        have h1 : clean_pass (line :: rest) = clean_pass rest := by
          simp only [clean_pass, hbf, Bool.false_eq_true, if_false, hkf]
        have h2 : clean_step ex line = none := by
          simp only [clean_step, hbf, Bool.false_eq_true, if_false, hkf]
        rw [h1, List.filterMap_cons, h2, ih]

theorem clean_code_lines_eq_filterMap (generated : List Char)
    (allLines : List (List Char)) :
    clean_code_lines generated allLines =
      (splitNl generated).filterMap (clean_step (existing_of allLines)) := by
  unfold clean_code_lines
  exact filter_clean_pass _ (existing_of_no_empty allLines) _

theorem lookup_map_overwrite {β : Type} (k : String) (v : β) :
    ∀ m : List (String × β), m.any (fun p => p.1 == k) = true →
      List.lookup k (m.map (fun p => if p.1 == k then (k, v) else p)) = some v := by
  intro m
  induction m with
  | nil =>
    intro h
    simp at h
  | cons p rest ih =>
    intro h
    obtain ⟨k1, v1⟩ := p
    rw [List.map_cons]
    by_cases hk : k1 = k
    · have hbt : (k1 == k) = true := by simpa using hk
      rw [if_pos hbt]
      simp [List.lookup]
    · have hne1 : (k1 == k) = false := by simpa using hk
      have hne2 : (k == k1) = false := by
        simpa using fun he => hk he.symm
      have h' : rest.any (fun p => p.1 == k) = true := by
        simpa [hne1] using h
      rw [if_neg (by simp [hne1])]
      simp only [List.lookup, hne2]
      exact ih h'

theorem lookup_append_new {β : Type} (k : String) (v : β) :
    ∀ m : List (String × β), m.any (fun p => p.1 == k) = false →
      List.lookup k (m ++ [(k, v)]) = some v := by
  intro m
  induction m with
  | nil =>
    intro _
    simp [List.lookup]
  | cons p rest ih =>
    intro h
    obtain ⟨k1, v1⟩ := p
    have h1 : (k1 == k) = false := by
      cases hx : (k1 == k) with
      | false => rfl
      | true => simp [List.any_cons, hx] at h
    have h2 : rest.any (fun p => p.1 == k) = false := by
      cases hx : rest.any (fun p => p.1 == k) with
      | false => rfl
      | true => simp [List.any_cons, hx] at h
    have hne : (k == k1) = false := by
      have hk : ¬ k1 = k := by simpa using h1
      simpa using fun he => hk he.symm
    simpa [List.lookup, hne] using ih h2

theorem lookup_dictSet {β : Type} (m : List (String × β)) (k : String) (v : β) :
    List.lookup k (dictSet m k v) = some v := by
  unfold dictSet
  by_cases h : m.any (fun p => p.1 == k) = true
  · rw [if_pos h]
    exact lookup_map_overwrite k v m h
  · rw [if_neg h]
    exact lookup_append_new k v m (Bool.eq_false_iff.mpr h)

theorem openAt_none_of_no_pre {s : List Char} (h : fenceTok.isPrefixOf s = false) :
    openAt s = none := by
  unfold openAt
  rw [if_neg (by rw [h]; exact Bool.false_ne_true)]

theorem search_none_of_no_fence {content : List Char}
    (h : hasSub fenceTok content = false) :
    searchFull content = none ∧ searchOpen content = none := by
  induction content with
  | nil => exact ⟨rfl, rfl⟩
  | cons c rest ih =>
    have h1 : fenceTok.isPrefixOf (c :: rest) = false := by
      cases hx : fenceTok.isPrefixOf (c :: rest) with
      | false => rfl
      | true => simp [hasSub, hx] at h
    have h2 : hasSub fenceTok rest = false := by
      cases hx : hasSub fenceTok rest with
      | false => rfl
      | true => simp [hasSub, hx] at h
    obtain ⟨ihF, ihO⟩ := ih h2
    have ho : openAt (c :: rest) = none := openAt_none_of_no_pre h1
    constructor
    · simp only [searchFull, ho, ihF]
    · simp only [searchOpen, ho, ihO]

/-- C1 (amended): for every raw model output and every current-line prefix,
the string returned by `clean_completion` contains no newline character and no
residual fence marker "```".  (The original claim additionally asserted that
no control token can occur in the output; `clean_completion_token_cex`
refutes that part: removing one occurrence can splice the surrounding
fragments into a new token.) -/
theorem clean_completion_no_newline_no_fence (raw p : List Char) :
    '\n' ∉ clean_completion raw p ∧
    hasSub fenceTok (clean_completion raw p) = false := by
  rw [clean_completion_eq]
  constructor
  · intro hmem
    have h1 := mem_pyStrip hmem
    have h2 := List.mem_takeWhile_imp h1
    simp at h2
  · exact hasSub_false_of
      (fun hx => hasSub_dropWhile (hasSub_takeWhile (hasSub_pyStrip hx)))
      (cleanDedup_fence_free raw p)

/-- C1 (counterexample): `clean_completion` applied to the raw output
"<|endof<|endoftext|>text|>" with an empty current line returns exactly the
control token "<|endoftext|>" — the pass removing the inner occurrence joins
"<|endof" and "text|>" into a fresh occurrence of the token, so the output is
not free of control tokens. -/
theorem clean_completion_token_cex :
    clean_completion ("<|endof<|endoftext|>text|>".toList) [] = endOfText ∧
    hasSub endOfText (clean_completion ("<|endof<|endoftext|>text|>".toList) [])
      = true :=
  ⟨by decide, by decide⟩

/-- C2: starting from any turn log of length at most 2*MAX_TURNS = 20, after
any sequence of `add_turn` calls the log never exceeds 20 entries and equals
exactly the suffix of most recently appended entries in their original order;
a single append is unconditional and, exactly when it pushes the length past
the bound, removes the single oldest entry. -/
theorem add_turn_bounded (init ts : List Turn) (t : Turn)
    (hinit : init.length ≤ MAX_TURNS * 2) :
    (List.foldl add_turn init ts).length ≤ MAX_TURNS * 2 ∧
    List.foldl add_turn init ts =
      (init ++ ts).drop ((init ++ ts).length - MAX_TURNS * 2) ∧
    add_turn init t =
      (if MAX_TURNS * 2 < (init ++ [t]).length then (init ++ [t]).drop 1
       else init ++ [t]) :=
  ⟨foldl_add_turn_length ts init hinit, foldl_add_turn ts init hinit,
    add_turn_ite init t⟩

/-- C2 witness: the bound instantiated at the empty log and 21 concrete
appends. -/
theorem add_turn_bounded_w :
    (List.foldl add_turn [] ts21).length ≤ MAX_TURNS * 2 ∧
    List.foldl add_turn [] ts21 =
      (([] : List Turn) ++ ts21).drop
        ((([] : List Turn) ++ ts21).length - MAX_TURNS * 2) ∧
    add_turn [] (Turn.mk "user" "w") =
      (if MAX_TURNS * 2 <
          (([] : List Turn) ++ [(Turn.mk "user" "w")]).length
       then (([] : List Turn) ++ [(Turn.mk "user" "w")]).drop 1
       else ([] : List Turn) ++ [(Turn.mk "user" "w")]) :=
  add_turn_bounded [] ts21 (Turn.mk "user" "w") (by decide)

/-- C3: every non-blank line returned by `_clean_code_lines` has trimmed text
different from the trimmed text of every line of the target document. -/
theorem clean_code_lines_no_duplicate (generated : List Char)
    (allLines : List (List Char)) (l : List Char)
    (hmem : l ∈ clean_code_lines generated allLines)
    (hnb : pyStrip l ≠ []) :
    ∀ e ∈ allLines, pyStrip l ≠ pyStrip e := by
  intro e he heq
  unfold clean_code_lines at hmem
  have h1 := List.mem_filter.mp hmem
  have h2 : (existing_of allLines).contains (pyStrip l) = false := by
    have hx := h1.2
    cases hc : (existing_of allLines).contains (pyStrip l) with
    | false => rfl
    | true =>
      rw [hc] at hx
      exact absurd hx (by simp)
  have h3 : pyStrip e ∈ existing_of allLines := by
    apply List.mem_filter.mpr
    refine ⟨List.mem_map.mpr ⟨e, he, rfl⟩, ?_⟩
    rw [← heq]
    simpa using hnb
  rw [← heq] at h3
  have h4 : (existing_of allLines).contains (pyStrip l) = true :=
    List.elem_iff.mpr h3
  rw [h2] at h4
  exact absurd h4 (by simp)

/-- C3 witness: the kept line "x = 1" against the document ["y"]. -/
theorem clean_code_lines_no_duplicate_w :
    pyStrip ("x = 1".toList) ≠ pyStrip ("y".toList) :=
  clean_code_lines_no_duplicate ("x = 1".toList) [("y".toList)]
    ("x = 1".toList) (by decide) (by decide) ("y".toList) (by decide)

/-- C4: `load()` on a missing backing file, an unreadable backing file, or a
backing file whose contents fail to parse as JSON returns exactly the empty
document; being a total function into `Doc`, it propagates no error. -/
theorem load_context_failure_empty :
    load_context .absent = emptyDoc ∧
    load_context .unreadable = emptyDoc ∧
    load_context .corrupt = emptyDoc :=
  ⟨rfl, rfl, rfl⟩

/-- C5: within one process, `put` (`cache_snippet`) followed by `get`
(`get_cached_snippet`) on the same key returns the stored code from every
prior state, for both outcomes of the disk write — the in-memory tier is
consulted first and is authoritative. -/
theorem cache_put_get (st : ModState) (comment code ts : String) (ok : Bool) :
    get_cached_snippet (cache_snippet comment code ts ok st) comment
      = some code := by
  unfold get_cached_snippet
  rw [show (cache_snippet comment code ts ok st).snippet_cache =
        dictSet st.snippet_cache comment code from rfl]
  rw [lookup_dictSet]

/-- C6: with a healthy backing store — the write succeeds and the file reads
back as the document that was written — `save` followed by `load` returns a
document equal to the saved one, for every document and prior disk state. -/
theorem save_load_roundtrip (d : Doc) (ds : DiskState) :
    load_context (save_context true d ds) = d := rfl

/-- C7: `extract_code` tries, in order: (a) the complete-fenced-block regex —
when it matches (`searchFull` yields a capture), the result is the trimmed
interior of the leftmost such block; (b) otherwise the lone-opening-fence
regex — when it matches (`searchOpen`), everything after the opening marker,
trimmed; (c) otherwise — neither regex matched, which covers both contents
with no fence marker at all and contents like "x```y" whose fence is not
followed by a newline — the whole content, trimmed.  The three cases are
exhaustive and mutually exclusive by the `Option` case split on the two
searches.  A content without any fence marker always lands in case (c).  In
particular on "Here:\n```python\nx = 1\n```" the result is "x = 1". -/
theorem extract_code_spec :
    extract_code ("Here:\n```python\nx = 1\n```".toList) = "x = 1".toList ∧
    (∀ content cap, searchFull content = some cap →
      extract_code content = pyStrip cap) ∧
    (∀ content r, searchFull content = none → searchOpen content = some r →
      extract_code content = pyStrip r) ∧
    (∀ content, searchFull content = none → searchOpen content = none →
      extract_code content = pyStrip content) ∧
    (∀ content, hasSub fenceTok content = false →
      searchFull content = none ∧ searchOpen content = none) := by
  refine ⟨by decide, ?_, ?_, ?_, ?_⟩
  · intro content cap h
    unfold extract_code
    rw [h]
  · intro content r h1 h2
    unfold extract_code
    rw [h1, h2]
  · intro content h1 h2
    unfold extract_code
    rw [h1, h2]
  · intro content h
    exact search_none_of_no_fence h

/-- C7 witness: fallback (c) evaluated at the content "x```y", which contains
a fence marker yet matches neither regex (no newline after the fence), so the
whole content is returned trimmed. -/
theorem extract_code_spec_w :
    extract_code ("x```y".toList) = pyStrip ("x```y".toList) :=
  extract_code_spec.2.2.2.1 ("x```y".toList) (by decide) (by decide)

/-- C8: appending the 25 alternating user/assistant turns `turns25` to the
empty log leaves exactly 20 entries — the last 20 appended ones in
chronological order — and `get_history_messages "sys"` then returns exactly
21 messages whose head is the system message followed by those 20 turns. -/
theorem turn_log_scenario_25 :
    (List.foldl add_turn [] turns25).length = 20 ∧
    List.foldl add_turn [] turns25 = turns25.drop 5 ∧
    (get_history_messages "sys" (List.foldl add_turn [] turns25)).length = 21 ∧
    get_history_messages "sys" (List.foldl add_turn [] turns25) =
      { role := "system", content := "sys" } :: turns25.drop 5 := by
  decide

/-- C9 (counterexample): the whitespace-only line "  " is blank (its trimmed
text is empty), yet it does not appear unchanged in the output of
`_clean_code_lines`: the output is the single empty line "". -/
theorem blank_line_not_verbatim :
    clean_code_lines ("  ".toList) [] = [[]] ∧
    ("  ".toList) ∉ clean_code_lines ("  ".toList) [] :=
  ⟨by decide, by decide⟩

/-- C9 (amended): `_clean_code_lines` equals an order-preserving per-line
map-or-drop (`clean_step`) over the physical lines of `generated`, and every
blank line — trimmed text empty, including whitespace-only lines — is mapped
to the empty line "" (kept at its original relative position), never dropped;
whitespace-only lines are thus preserved as empty lines rather than
verbatim. -/
theorem blank_lines_preserved_as_empty (generated : List Char)
    (allLines : List (List Char)) :
    clean_code_lines generated allLines =
      (splitNl generated).filterMap (clean_step (existing_of allLines)) ∧
    (∀ line, pyStrip line = [] →
      clean_step (existing_of allLines) line = some []) :=
  ⟨clean_code_lines_eq_filterMap generated allLines,
    fun _ hb => clean_step_blank (existing_of_no_empty allLines) hb⟩

/-- C9 witness: the blank line "  " is mapped to the empty line by the
per-line step against a concrete document. -/
theorem blank_lines_preserved_as_empty_w :
    clean_step (existing_of [("x".toList)]) ("  ".toList) = some [] :=
  (blank_lines_preserved_as_empty ("  ".toList) [("x".toList)]).2
    ("  ".toList) (by decide)

/-- C10: frame conditions — `cache_snippet` leaves the file-summary table and
the session turn log unchanged, and `store_file_summary` leaves the snippet
mapping (the in-memory tier and the persisted document's table) and the
session turn log unchanged: each write touches only its own table plus the
disk flush. -/
theorem write_ops_frame (st : ModState) (comment code ts : String) (ok : Bool)
    (fp sm ts2 : String) (ok2 : Bool) :
    (cache_snippet comment code ts ok st).disk_context.file_summaries =
      st.disk_context.file_summaries ∧
    (cache_snippet comment code ts ok st).turn_history = st.turn_history ∧
    (store_file_summary fp sm ts2 ok2 st).disk_context.snippets =
      st.disk_context.snippets ∧
    (store_file_summary fp sm ts2 ok2 st).snippet_cache = st.snippet_cache ∧
    (store_file_summary fp sm ts2 ok2 st).turn_history = st.turn_history :=
  ⟨rfl, rfl, rfl, rfl, rfl⟩
